import Mathlib

/-!
# Verification of the git-mg synchronization engine (git-sync)

A shallow embedding, in Lean 4, of the core synchronization logic of the
`git-mg` repository (`git-sync` command, `gitapi` package).  Go strings are
modelled as Lean `String` (operated on through their underlying character
lists, which is faithful for the ASCII protocol data involved), Go slices as
`List`, Go `error` results as an explicit error type, and every external
effect (subprocess output, `os.Stat`, `git check-ignore`) as an explicit
oracle parameter or environment field.  Each embedded definition mirrors one
Go function of the source tree and keeps its name.
-/

/-! ## String primitives

Go byte-level string operations, modelled on the character list underlying a
Lean `String`.  The data these operate on in the program (status codes, null
separators, path prefixes) is ASCII, where Go byte indexing and Lean
character indexing agree. -/

/-- Go `strings.HasPrefix`. -/
def strStartsWith (s pre : String) : Bool :=
  pre.data.isPrefixOf s.data

/-- Go `strings.HasSuffix`. -/
def strEndsWith (s suf : String) : Bool :=
  suf.data.isSuffixOf s.data

/-- Go byte slicing `s[:n]` (ASCII prefix). -/
def strTake (s : String) (n : Nat) : String :=
  ⟨s.data.take n⟩

/-- Go byte slicing `s[n:]` (ASCII prefix dropped). -/
def strDrop (s : String) (n : Nat) : String :=
  ⟨s.data.drop n⟩

/-! ## Null-terminated join/split (`gitapi/git.go`)

`JoinNullTerminated` and `SplitNullTerminated` are the null-delimited codec
used for every exchange with git, watchman and the rsync manifest. -/

/-- Go `strings.Join(ss, "\000")`: interleave a NUL character between the
elements. -/
def joinWithNul : List String → List Char
  | [] => []
  | [s] => s.data
  | s :: ss => s.data ++ '\x00' :: joinWithNul ss

/-- `gitapi.JoinNullTerminated`: empty list maps to the empty string,
otherwise `strings.Join(ss, "\000") + "\000"`. -/
def JoinNullTerminated (ss : List String) : String :=
  if ss.isEmpty then "" else ⟨joinWithNul ss ++ ['\x00']⟩

/-- Go `strings.Split(s, "\000")` on the character list: split at every NUL.
`strings.Split` of the empty string yields one empty field. -/
def splitOnNul : List Char → List String
  | [] => [""]
  | c :: cs =>
    if c = '\x00' then "" :: splitOnNul cs
    else
      match splitOnNul cs with
      | [] => [⟨[c]⟩]
      | r :: rs => ⟨c :: r.data⟩ :: rs

/-- `gitapi.SplitNullTerminated`: the empty string maps to nil; a trailing
NUL terminator is stripped before splitting ("deal with buggy
interpretations of null-terminated"). -/
def SplitNullTerminated (s : String) : List String :=
  if s = "" then []
  else
    splitOnNul (if s.data.getLast? = some '\x00' then s.data.dropLast else s.data)

/-! ## Bash quoting (`gitapi/bash.go`) -/

/-- The character set the quoting routine passes through unquoted. -/
def safeUnquoted : String :=
  "ABCDEFGHIJKLMNOPQRSTUVWXYZabcdefghijklmnopqrstuvwxyz0123456789@%_-+=:,./"

/-- One step of Go `strings.Replace(s, "singlequote", ..., -1)` used by the
quoting routine: a single quote becomes the five characters
quote-doublequote-quote-doublequote-quote, every other character is kept. -/
def bashEscapeQuoteChar (c : Char) : List Char :=
  if c = '\'' then '\'' :: '"' :: '\'' :: '"' :: '\'' :: [] else [c]

/-- `gitapi.BashQuoteWord` (`bash.go`): strings starting with `~/` are passed
through verbatim (the comment says tilde expansion is deliberately left
enabled), the empty string becomes a pair of single quotes, strings made of
safe characters only are returned unchanged, anything else is wrapped in
single quotes with embedded single quotes escaped. -/
def BashQuoteWord (s : String) : String :=
  if strStartsWith s "~/" then s
  else if s = "" then ⟨['\'', '\'']⟩
  else if s.data.any (fun r => !(safeUnquoted.data.contains r)) then
    ⟨'\'' :: (s.data.flatMap bashEscapeQuoteChar ++ ['\''])⟩
  else s

/-- `gitapi.BashQuote` (`gitapi/bash.go`), the copy of the same routine used
at the remote-script injection boundary; its body is character-for-character
the body of `BashQuoteWord`. -/
def BashQuote (s : String) : String :=
  if strStartsWith s "~/" then s
  else if s = "" then ⟨['\'', '\'']⟩
  else if s.data.any (fun r => !(safeUnquoted.data.contains r)) then
    ⟨'\'' :: (s.data.flatMap bashEscapeQuoteChar ++ ['\''])⟩
  else s

/-! ## A POSIX shell word evaluator

Modelled from the spec: the external collaborator that consumes the quoted
words is a POSIX shell ("escaping/quoting of all substituted values ... must
be total — treat it as an injection boundary").  `shellEvalChars` evaluates
one word the way a POSIX shell expands it to a single literal string: single
quotes preserve everything up to the next single quote, double quotes
preserve everything except the expansion characters dollar, backtick and
backslash (on which the model conservatively gives up), and an unquoted
character is accepted only if it is one of the known-literal characters (the
`safeUnquoted` set — every one of those is literal in a POSIX shell word);
any other unquoted character (whitespace, globs, tilde, dollar, ...) makes
the word either split, expand or fail, so the model returns `none`.  An
unterminated quote is an error.  A leading `~/` undergoes tilde expansion to
the invoking user's home directory, handled in `shellEvalWord`. -/
def shellEvalChars : Bool × Bool → List Char → Option (List Char)
  | (false, false), [] => some []
  | (true, _), [] => none
  | (false, true), [] => none
  | (false, false), c :: cs =>
    if c = '\'' then shellEvalChars (true, false) cs
    else if c = '"' then shellEvalChars (false, true) cs
    else if safeUnquoted.data.contains c then
      (shellEvalChars (false, false) cs).map (fun out => c :: out)
    else none
  | (true, m), c :: cs =>
    if c = '\'' then shellEvalChars (false, m) cs
    else (shellEvalChars (true, m) cs).map (fun out => c :: out)
  | (false, true), c :: cs =>
    if c = '"' then shellEvalChars (false, false) cs
    else if c = '$' ∨ c = '`' ∨ c = '\\' then none
    else (shellEvalChars (false, true) cs).map (fun out => c :: out)

/-- Evaluate a shell word to the single literal argument a POSIX shell would
produce for it, given the home directory `home` that a leading unquoted `~`
expands to; `none` when the word is not a plain literal (word splitting,
globbing, expansion, or unterminated quotes). -/
def shellEvalWord (home : String) (w : String) : Option String :=
  if strStartsWith w "~/" then
    (shellEvalChars (false, false) w.data.tail).map (fun out => ⟨home.data ++ out⟩)
  else
    (shellEvalChars (false, false) w.data).map (fun out => ⟨out⟩)

/-! ### Lemmas: null-terminated codec -/

theorem splitOnNul_ne_nil (cs : List Char) : splitOnNul cs ≠ [] := by
  induction cs with
  | nil => simp [splitOnNul]
  | cons c cs ih =>
    simp only [splitOnNul]
    split
    · simp
    · cases h : splitOnNul cs with
      | nil => exact absurd h ih
      | cons r rs => simp [h]

theorem splitOnNul_no_nul (cs : List Char) (h : '\x00' ∉ cs) :
    splitOnNul cs = [⟨cs⟩] := by
  induction cs with
  | nil => rfl
  | cons c cs ih =>
    simp only [List.mem_cons, not_or] at h
    simp only [splitOnNul]
    rw [if_neg (fun hc => h.1 hc.symm), ih h.2]

theorem splitOnNul_append (cs rest : List Char) (h : '\x00' ∉ cs) :
    splitOnNul (cs ++ '\x00' :: rest) = ⟨cs⟩ :: splitOnNul rest := by
  induction cs with
  | nil => simp [splitOnNul]
  | cons c cs ih =>
    simp only [List.mem_cons, not_or] at h
    simp only [List.cons_append, splitOnNul]
    rw [if_neg (fun hc => h.1 hc.symm)]
    simp only [List.append_eq]
    rw [ih h.2]

theorem splitOnNul_joinWithNul (l : List String) (hne : l ≠ [])
    (h : ∀ x ∈ l, '\x00' ∉ x.data) :
    splitOnNul (joinWithNul l) = l := by
  induction l with
  | nil => exact absurd rfl hne
  | cons a l ih =>
    cases l with
    | nil =>
      simp only [joinWithNul]
      rw [splitOnNul_no_nul a.data (h a (by simp))]
    | cons b l' =>
      simp only [joinWithNul]
      rw [splitOnNul_append _ _ (h a (by simp))]
      rw [ih (by simp) (fun x hx => h x (List.mem_cons_of_mem a hx))]

/-- C10: `SplitNullTerminated (JoinNullTerminated l) = l` for every list of
non-empty NUL-free strings, and the empty list and the empty string map to
each other.  Confirms the round-trip underlying every null-delimited
exchange with git, watchman, and the rsync manifest. -/
theorem C10_null_terminated_roundtrip (l : List String)
    (h : ∀ x ∈ l, x ≠ "" ∧ '\x00' ∉ x.data) :
    SplitNullTerminated (JoinNullTerminated l) = l ∧
    JoinNullTerminated [] = "" ∧ SplitNullTerminated "" = [] := by
  refine ⟨?_, rfl, rfl⟩
  cases l with
  | nil => rfl
  | cons a l' =>
    have hjoin : JoinNullTerminated (a :: l') = ⟨joinWithNul (a :: l') ++ ['\x00']⟩ := by
      simp [JoinNullTerminated]
    rw [hjoin, SplitNullTerminated]
    rw [if_neg (by simp [String.ext_iff])]
    simp only [List.getLast?_concat, List.dropLast_concat, if_pos rfl]
    exact splitOnNul_joinWithNul (a :: l') (by simp) (fun x hx => (h x hx).2)

/-- Witness for C10 at a concrete list. -/
theorem C10_null_terminated_roundtrip_witness :
    SplitNullTerminated (JoinNullTerminated ["a", "b/c"]) = ["a", "b/c"] ∧
    JoinNullTerminated [] = "" ∧ SplitNullTerminated "" = [] :=
  C10_null_terminated_roundtrip ["a", "b/c"] (by decide)

/-! ### Lemmas: bash quoting round trip -/

theorem shellEvalChars_literal (cs : List Char)
    (h : ∀ c ∈ cs, safeUnquoted.data.contains c = true) :
    shellEvalChars (false, false) cs = some cs := by
  induction cs with
  | nil => rfl
  | cons c cs ih =>
    have hc := h c (by simp)
    have hq : ¬ c = '\'' := by rintro rfl; revert hc; decide
    have hd : ¬ c = '"' := by rintro rfl; revert hc; decide
    simp only [shellEvalChars]
    rw [if_neg hq, if_neg hd, if_pos hc,
      ih (fun x hx => h x (List.mem_cons_of_mem c hx))]
    rfl

theorem shellEvalChars_singleQuoted (l : List Char) :
    shellEvalChars (true, false) (l.flatMap bashEscapeQuoteChar ++ ['\'']) = some l := by
  induction l with
  | nil => rfl
  | cons c l ih =>
    by_cases hc : c = '\''
    · subst hc
      have hstep : ∀ rest : List Char,
          shellEvalChars (true, false) ('\'' :: '"' :: '\'' :: '"' :: '\'' :: rest) =
            (shellEvalChars (true, false) rest).map (fun out => '\'' :: out) :=
        fun rest => rfl
      have hesc : ('\'' :: l).flatMap bashEscapeQuoteChar =
          '\'' :: '"' :: '\'' :: '"' :: '\'' :: l.flatMap bashEscapeQuoteChar := rfl
      rw [hesc]
      simp only [List.cons_append]
      rw [hstep, ih]
      rfl
    · have hesc : (c :: l).flatMap bashEscapeQuoteChar =
          c :: l.flatMap bashEscapeQuoteChar := by
        simp [List.flatMap_cons, bashEscapeQuoteChar, if_neg hc]
      rw [hesc]
      simp only [List.cons_append]
      simp only [shellEvalChars]
      rw [if_neg hc, ih]
      rfl

theorem strStartsWith_quote_tilde (l : List Char) :
    strStartsWith ⟨'\'' :: l⟩ "~/" = false := rfl

theorem bashQuoteWord_eval (home s : String) (h : strStartsWith s "~/" = false) :
    shellEvalWord home (BashQuoteWord s) = some s := by
  rw [BashQuoteWord, if_neg (by simp [h])]
  by_cases hs : s = ""
  · subst hs
    rw [if_pos rfl]
    rfl
  · rw [if_neg hs]
    by_cases hunsafe : s.data.any (fun r => !(safeUnquoted.data.contains r)) = true
    · rw [if_pos hunsafe]
      rw [shellEvalWord, if_neg (by rw [strStartsWith_quote_tilde]; simp)]
      have hdata : (⟨'\'' :: (s.data.flatMap bashEscapeQuoteChar ++ ['\''])⟩ : String).data =
          '\'' :: (s.data.flatMap bashEscapeQuoteChar ++ ['\'']) := rfl
      rw [hdata]
      have hstep : shellEvalChars (false, false)
          ('\'' :: (s.data.flatMap bashEscapeQuoteChar ++ ['\''])) =
          shellEvalChars (true, false) (s.data.flatMap bashEscapeQuoteChar ++ ['\'']) := rfl
      rw [hstep, shellEvalChars_singleQuoted]
      rfl
    · rw [if_neg hunsafe]
      rw [shellEvalWord, if_neg (by simp [h])]
      have hall : ∀ c ∈ s.data, safeUnquoted.data.contains c = true := by
        intro c hc
        by_contra hcc
        have hfalse : safeUnquoted.data.contains c = false := by
          cases hb : safeUnquoted.data.contains c
          · rfl
          · exact absurd hb hcc
        refine hunsafe (List.any_eq_true.mpr ⟨c, hc, ?_⟩)
        show (!safeUnquoted.data.contains c) = true
        rw [hfalse]
        rfl
      rw [shellEvalChars_literal s.data hall]
      rfl

/-- C5 counterexample: the claim fails on strings beginning with `~/`.  The
quoting routine passes `~/x` through verbatim, and a POSIX shell
tilde-expands the unquoted result to the invoking user's home directory
(here `/root`), which is not the original string. -/
theorem C5_bashquote_counterexample :
    BashQuoteWord "~/x" = "~/x" ∧
    shellEvalWord "/root" (BashQuoteWord "~/x") = some "/root/x" ∧
    ¬ shellEvalWord "/root" (BashQuoteWord "~/x") = some "~/x" := by decide

/-- C5 (amended): for every input string that does not begin with `~/`, the
shell-quoting functions `BashQuoteWord` and `BashQuote` produce a word that a
POSIX shell evaluates back to exactly the input — strings beginning with
`~/` are deliberately passed through unquoted so that the remote shell
expands the home directory. -/
theorem C5_bashquote_injection_safe (home s : String)
    (h : strStartsWith s "~/" = false) :
    shellEvalWord home (BashQuoteWord s) = some s ∧
    shellEvalWord home (BashQuote s) = some s :=
  ⟨bashQuoteWord_eval home s h, by
    rw [show BashQuote s = BashQuoteWord s from rfl]
    exact bashQuoteWord_eval home s h⟩

/-- Witness for C5 at a concrete string containing a single quote and a
space. -/
theorem C5_bashquote_injection_safe_witness :
    shellEvalWord "/home/u" (BashQuoteWord ⟨['a', '\'', 'b', ' ', 'c']⟩) =
      some ⟨['a', '\'', 'b', ' ', 'c']⟩ ∧
    shellEvalWord "/home/u" (BashQuote ⟨['a', '\'', 'b', ' ', 'c']⟩) =
      some ⟨['a', '\'', 'b', ' ', 'c']⟩ :=
  C5_bashquote_injection_safe "/home/u" ⟨['a', '\'', 'b', ' ', 'c']⟩ (by decide)

/-! ## Go errors and process exit status (`cmd.go`) -/

/-- Go `error` values as they matter to the embedded logic: either an
`*exec.ExitError` carrying the process exit status and captured stderr, or
any other error identified by its message (`errors.New` / `errors.Errorf`). -/
inductive GoError where
  | exitError (status : Nat) (stderr : String)
  | errorf (msg : String)
deriving Repr, DecidableEq

/-- `gitapi.ExitStatus` / `exitStatus` (`cmd.go`): the wait status of an
`*exec.ExitError`; an "invalid error type" error for anything else. -/
def exitStatus : GoError → Except GoError Nat
  | .exitError n _ => .ok n
  | .errorf _ => .error (.errorf "invalid error type")

/-! ## The sync cookie (`git-sync.go`) -/

/-- `syncCookie`: the three persisted fields (`LastHeadHash`,
`LastMergeBaseHash`, `LastSyncStartNs`) read back from
`.git/git-sync-cookie.json`, plus the ephemeral state of the current run
computed by `readSyncCookie`. -/
structure SyncCookie where
  LastHeadHash : String
  LastMergeBaseHash : String
  LastSyncStartNs : Int
  headHash : String
  mergeBaseHash : String
  syncStartNs : Int
deriving Repr, DecidableEq

/-- `syncCookie.gitStateChanged`:
`!(sc.LastHeadHash != "" && sc.LastHeadHash == sc.headHash && sc.LastMergeBaseHash == sc.mergeBaseHash)`. -/
def SyncCookie.gitStateChanged (sc : SyncCookie) : Bool :=
  !(!(sc.LastHeadHash == "") && sc.LastHeadHash == sc.headHash &&
    sc.LastMergeBaseHash == sc.mergeBaseHash)

theorem gitStateChanged_iff (sc : SyncCookie) :
    sc.gitStateChanged = true ↔
      (sc.LastHeadHash = "" ∨ sc.headHash ≠ sc.LastHeadHash ∨
        sc.mergeBaseHash ≠ sc.LastMergeBaseHash) := by
  simp only [SyncCookie.gitStateChanged, Bool.not_eq_true', Bool.and_eq_false_iff,
    Bool.not_eq_false', beq_iff_eq, Bool.not_eq_true, beq_eq_false_iff_ne, ne_eq]
  constructor
  · rintro ((h | h) | h)
    · exact Or.inl h
    · exact Or.inr (Or.inl (fun hh => h hh.symm))
    · exact Or.inr (Or.inr (fun hm => h hm.symm))
  · rintro (h | h | h)
    · exact Or.inl (Or.inl h)
    · exact Or.inl (Or.inr (fun hh => h hh.symm))
    · exact Or.inr (fun hm => h hm.symm)

/-! ## Configuration (`config.go`) -/

/-- `config`: the resolved per-invocation configuration.  The raw
`gitConfig` key/value dump is carried as an association list. -/
structure Config where
  sshControlPath : String
  gitLocalPath : String
  gitRemotePath : String
  rsyncLocalPath : String
  rsyncRemotePath : String
  fsmonitorLocalPath : String
  excludePaths : List String
  remoteName : String
  remoteURL : String
  gitConfig : List (String × String)
deriving Repr, DecidableEq

/-- `cfg.remoteSSHAddr()`: `strings.Split(cfg.remoteURL, ":")[0]`, the
characters before the first colon. -/
def Config.remoteSSHAddr (cfg : Config) : String :=
  ⟨cfg.remoteURL.data.takeWhile (fun c => !(c = ':'))⟩

/-- `cfg.remoteDir()`: `strings.Split(cfg.remoteURL, ":")[1]`, the characters
between the first and second colon (the Go code panics when the URL has no
colon; the model returns the empty string there). -/
def Config.remoteDir (cfg : Config) : String :=
  ⟨((cfg.remoteURL.data.dropWhile (fun c => !(c = ':'))).tail).takeWhile (fun c => !(c = ':'))⟩

/-- `cfg.fsmonitorEnabled()`: `cfg.fsmonitorLocalPath != ""`. -/
def Config.fsmonitorEnabled (cfg : Config) : Bool :=
  !(cfg.fsmonitorLocalPath == "")

/-! ## The remote reconciliation directive (`gitSyncCmd`) -/

/-- Go `strings.Join(ss, sep)`. -/
def strJoin (sep : String) : List String → String
  | [] => ""
  | [s] => s
  | s :: ss => s ++ sep ++ strJoin sep ss

/-- `remoteGitCmdFmt`: the substitution record materialized into the remote
reconciliation script template. -/
structure RemoteGitCmdFmt where
  CheckoutRequired : String
  CleanRequired : String
  GitRemotePath : String
  RemoteDir : String
  CommitHash : String
  ExcludePaths : String
deriving Repr, DecidableEq

/-- The directive-computing core of `gitSyncCmd` (`git-sync.go`): defaults
both `CheckoutRequired` and `CleanRequired` to `"1"` and elides them to
`"0"` when `sc.gitStateChanged()` is false. -/
def gitSyncCmdFmt (cfg : Config) (sc : SyncCookie) : RemoteGitCmdFmt :=
  let cmdFmt : RemoteGitCmdFmt :=
    { CheckoutRequired := "1"
      CleanRequired := "1"
      GitRemotePath := cfg.gitRemotePath
      RemoteDir := cfg.remoteDir
      CommitHash := sc.mergeBaseHash
      ExcludePaths := strJoin " " (cfg.excludePaths.map (fun xp => "--exclude=" ++ xp)) }
  if !sc.gitStateChanged then
    { cmdFmt with CheckoutRequired := "0", CleanRequired := "0" }
  else cmdFmt

/-- C2: the reconciliation directive sets both `CheckoutRequired` and
`CleanRequired` to `"1"` exactly when the version-control state changed
since the persisted cookie (head differs, merge base differs, or no cookie
was present, leaving `LastHeadHash` empty); otherwise both are `"0"`. -/
theorem C2_state_change_forces_checkout_clean (cfg : Config) (sc : SyncCookie) :
    (((gitSyncCmdFmt cfg sc).CheckoutRequired = "1" ∧
      (gitSyncCmdFmt cfg sc).CleanRequired = "1") ↔
      (sc.LastHeadHash = "" ∨ sc.headHash ≠ sc.LastHeadHash ∨
        sc.mergeBaseHash ≠ sc.LastMergeBaseHash)) ∧
    (((gitSyncCmdFmt cfg sc).CheckoutRequired = "0" ∧
      (gitSyncCmdFmt cfg sc).CleanRequired = "0") ↔
      ¬(sc.LastHeadHash = "" ∨ sc.headHash ≠ sc.LastHeadHash ∨
        sc.mergeBaseHash ≠ sc.LastMergeBaseHash)) := by
  rw [← gitStateChanged_iff]
  unfold gitSyncCmdFmt
  cases hchanged : sc.gitStateChanged with
  | false => simp
  | true => simp

/-! ## String ordering and `sort.Strings` -/

/-- Lexicographic comparison of character lists, the order `sort.Strings`
sorts by (Go compares strings bytewise; UTF-8 byte order and code-point
order coincide). -/
def charsLe : List Char → List Char → Bool
  | [], _ => true
  | _ :: _, [] => false
  | a :: as, b :: bs =>
    if a = b then charsLe as bs else decide (a < b)

/-- Go string comparison `a <= b`. -/
def strLe (a b : String) : Bool :=
  charsLe a.data b.data

theorem charsLe_total (a b : List Char) : charsLe a b = true ∨ charsLe b a = true := by
  induction a generalizing b with
  | nil => exact Or.inl rfl
  | cons x xs ih =>
    cases b with
    | nil => exact Or.inr rfl
    | cons y ys =>
      by_cases hxy : x = y
      · subst hxy
        simp only [charsLe, if_pos rfl]
        exact ih ys
      · rcases lt_or_gt_of_ne hxy with hlt | hgt
        · refine Or.inl ?_
          simp only [charsLe]
          rw [if_neg hxy]
          exact decide_eq_true hlt
        · refine Or.inr ?_
          simp only [charsLe]
          rw [if_neg (fun h : y = x => hxy h.symm)]
          exact decide_eq_true hgt

theorem charsLe_trans (a b c : List Char) (hab : charsLe a b = true)
    (hbc : charsLe b c = true) : charsLe a c = true := by
  induction a generalizing b c with
  | nil => rfl
  | cons x xs ih =>
    cases b with
    | nil => exact absurd hab (by simp [charsLe])
    | cons y ys =>
      cases c with
      | nil => exact absurd hbc (by simp [charsLe])
      | cons z zs =>
        simp only [charsLe] at hab hbc ⊢
        by_cases hxy : x = y
        · subst hxy
          rw [if_pos rfl] at hab
          by_cases hyz : x = z
          · subst hyz
            rw [if_pos rfl] at hbc ⊢
            exact ih ys zs hab hbc
          · rw [if_neg hyz] at hbc ⊢
            exact hbc
        · rw [if_neg hxy] at hab
          have hxy2 : x < y := of_decide_eq_true hab
          by_cases hyz : y = z
          · subst hyz
            rw [if_neg hxy]
            exact hab
          · have hyz2 : y < z := of_decide_eq_true (by rwa [if_neg hyz] at hbc)
            have hxz : x < z := lt_trans hxy2 hyz2
            rw [if_neg (fun h => absurd h (ne_of_lt hxz)), decide_eq_true hxz]

/-- Go `sort.Strings`, modelled as an insertion sort by `strLe` (the Go
library sort is an unstable comparison sort; on the duplicate-free slices it
is applied to here the sorted result is unique). -/
def sortStrings (l : List String) : List String :=
  List.insertionSort (fun a b => strLe a b = true) l

/-! ## The slow path: `getChangesViaStatus` (`git-sync.go`) -/

/-- `getChangesViaStatus`: inserts the results of the working-tree status
query and of the committed-diff query against the merge base into one set
(`fileSet` / `stringSet2Slice`), then sorts (`sort.Strings`).  The two query
results are oracle parameters. -/
def getChangesViaStatus (statusFiles diffFiles : List String) : List String :=
  sortStrings ((statusFiles ++ diffFiles).dedup)

/-- C4: the slow path returns exactly the deduplicated union of the
working-tree status query results and the committed-diff query results,
sorted ascending: the output is sorted by the string order, has no
duplicates, and contains a path iff one of the two queries reported it. -/
theorem C4_slow_path_sorted_dedup_union (statusFiles diffFiles : List String) :
    List.Sorted (fun a b => strLe a b = true)
      (getChangesViaStatus statusFiles diffFiles) ∧
    (getChangesViaStatus statusFiles diffFiles).Nodup ∧
    ∀ p, p ∈ getChangesViaStatus statusFiles diffFiles ↔
      (p ∈ statusFiles ∨ p ∈ diffFiles) := by
  haveI htot : IsTotal String (fun a b => strLe a b = true) :=
    ⟨fun a b => charsLe_total a.data b.data⟩
  haveI htrans : IsTrans String (fun a b => strLe a b = true) :=
    ⟨fun a b c => charsLe_trans a.data b.data c.data⟩
  refine ⟨List.sorted_insertionSort _ _, ?_, ?_⟩
  · exact ((List.perm_insertionSort _ _).nodup_iff).mpr (List.nodup_dedup _)
  · intro p
    rw [getChangesViaStatus, sortStrings,
      (List.perm_insertionSort (fun a b => strLe a b = true) _).mem_iff,
      List.mem_dedup, List.mem_append]

/-! ## Porcelain status parsing (`gitapi/git.go`) -/

/-- The four result lists of `gitapi.ParsePorcelainStatus`, plus a ghost
field recording the files the function logs with "ignoring unmerged file"
(`log.Warningf` has no other observable effect). -/
structure StatusLists where
  modifiedFiles : List String
  untrackedFiles : List String
  renamedFiles : List String
  unstagedFiles : List String
  loggedUnmerged : List String
deriving Repr, DecidableEq

/-- The entry loop of `gitapi.ParsePorcelainStatus`: `status := entry[:2]`,
`fname := entry[3:]`; an `UU` entry is logged and skipped; every other entry
contributes `fname` to `modifiedFiles`; a rename entry (`status[0] == 'R'`)
additionally consumes the next raw entry as the renamed file; `??` marks
untracked and a non-blank second status byte marks unstaged.  Go panics on
an entry shorter than three bytes and on a rename entry in final position
(`entries[i]` out of range); the model returns `none` there. -/
def parsePorcelainEntries : List String → Option StatusLists
  | [] => some ⟨[], [], [], [], []⟩
  | entry :: rest =>
    if entry.data.length < 3 then none
    else if strTake entry 2 = "UU" then
      (parsePorcelainEntries rest).map (fun r =>
        { r with loggedUnmerged := strDrop entry 3 :: r.loggedUnmerged })
    else if strTake (strTake entry 2) 1 = "R" then
      match rest with
      | [] => none
      | renamedFile :: rest2 =>
        (parsePorcelainEntries rest2).map (fun r =>
          { r with
            modifiedFiles := strDrop entry 3 :: renamedFile :: r.modifiedFiles
            renamedFiles := renamedFile :: r.renamedFiles })
    else if strTake entry 2 = "??" then
      (parsePorcelainEntries rest).map (fun r =>
        { r with
          modifiedFiles := strDrop entry 3 :: r.modifiedFiles
          untrackedFiles := strDrop entry 3 :: r.untrackedFiles })
    else if ¬ strDrop (strTake entry 2) 1 = " " then
      (parsePorcelainEntries rest).map (fun r =>
        { r with
          modifiedFiles := strDrop entry 3 :: r.modifiedFiles
          unstagedFiles := strDrop entry 3 :: r.unstagedFiles })
    else
      (parsePorcelainEntries rest).map (fun r =>
        { r with modifiedFiles := strDrop entry 3 :: r.modifiedFiles })

/-- `gitapi.ParsePorcelainStatus`: split the raw `git status -z` output into
null-terminated entries and run the entry loop. -/
def ParsePorcelainStatus (data : String) : Option StatusLists :=
  parsePorcelainEntries (SplitNullTerminated data)

theorem parsePorcelainEntries_excludes (f : String) (entries : List String) :
    ∀ res : StatusLists,
    parsePorcelainEntries entries = some res →
    (∀ e ∈ entries, strDrop e 3 = f → strTake e 2 = "UU") →
    f ∉ entries →
    f ∉ res.modifiedFiles ∧ f ∉ res.untrackedFiles ∧ f ∉ res.renamedFiles ∧
      f ∉ res.unstagedFiles := by
  induction entries using parsePorcelainEntries.induct with
  | case1 =>
    intro res hparse _ _
    have h : some (⟨[], [], [], [], []⟩ : StatusLists) = some res := hparse
    cases h
    simp
  | case2 entry rest hlen =>
    intro res hparse _ _
    rw [parsePorcelainEntries.eq_def] at hparse
    dsimp only at hparse
    rw [if_pos hlen] at hparse
    exact Option.noConfusion hparse
  | case3 entry rest hlen hUU ih =>
    intro res hparse honly hraw
    rw [parsePorcelainEntries.eq_def] at hparse
    dsimp only at hparse
    rw [if_neg hlen, if_pos hUU] at hparse
    obtain ⟨r, hr, rfl⟩ := Option.map_eq_some'.mp hparse
    exact ih r hr (fun e he hd => honly e (List.mem_cons_of_mem entry he) hd)
      (fun hm => hraw (List.mem_cons_of_mem entry hm))
  | case4 entry hlen hnUU hR =>
    intro res hparse _ _
    rw [parsePorcelainEntries.eq_def] at hparse
    dsimp only at hparse
    rw [if_neg hlen, if_neg hnUU, if_pos hR] at hparse
    exact Option.noConfusion hparse
  | case5 entry hlen hnUU hR renamedFile rest2 ih =>
    intro res hparse honly hraw
    rw [parsePorcelainEntries.eq_def] at hparse
    dsimp only at hparse
    rw [if_neg hlen, if_neg hnUU, if_pos hR] at hparse
    obtain ⟨r, hr, rfl⟩ := Option.map_eq_some'.mp hparse
    have hfname : ¬ f = strDrop entry 3 := fun h =>
      hnUU (honly entry (List.mem_cons_self _ _) h.symm)
    have htarget : ¬ f = renamedFile := fun h =>
      hraw (h ▸ List.mem_cons_of_mem entry (List.mem_cons_self _ _))
    have hrest := ih r hr
      (fun e he hd => honly e
        (List.mem_cons_of_mem entry (List.mem_cons_of_mem renamedFile he)) hd)
      (fun hm => hraw (List.mem_cons_of_mem entry (List.mem_cons_of_mem renamedFile hm)))
    refine ⟨?_, hrest.2.1, ?_, hrest.2.2.2⟩
    · simp only [List.mem_cons, not_or]
      exact ⟨hfname, htarget, hrest.1⟩
    · simp only [List.mem_cons, not_or]
      exact ⟨htarget, hrest.2.2.1⟩
  | case6 entry rest hlen hnUU hnR hQQ ih =>
    intro res hparse honly hraw
    rw [parsePorcelainEntries.eq_def] at hparse
    dsimp only at hparse
    rw [if_neg hlen, if_neg hnUU, if_neg hnR, if_pos hQQ] at hparse
    obtain ⟨r, hr, rfl⟩ := Option.map_eq_some'.mp hparse
    have hfname : ¬ f = strDrop entry 3 := fun h =>
      hnUU (honly entry (List.mem_cons_self _ _) h.symm)
    have hrest := ih r hr (fun e he hd => honly e (List.mem_cons_of_mem entry he) hd)
      (fun hm => hraw (List.mem_cons_of_mem entry hm))
    refine ⟨?_, ?_, hrest.2.2.1, hrest.2.2.2⟩
    · simp only [List.mem_cons, not_or]
      exact ⟨hfname, hrest.1⟩
    · simp only [List.mem_cons, not_or]
      exact ⟨hfname, hrest.2.1⟩
  | case7 entry rest hlen hnUU hnR hnQQ hUnst ih =>
    intro res hparse honly hraw
    rw [parsePorcelainEntries.eq_def] at hparse
    dsimp only at hparse
    rw [if_neg hlen, if_neg hnUU, if_neg hnR, if_neg hnQQ, if_pos hUnst] at hparse
    obtain ⟨r, hr, rfl⟩ := Option.map_eq_some'.mp hparse
    have hfname : ¬ f = strDrop entry 3 := fun h =>
      hnUU (honly entry (List.mem_cons_self _ _) h.symm)
    have hrest := ih r hr (fun e he hd => honly e (List.mem_cons_of_mem entry he) hd)
      (fun hm => hraw (List.mem_cons_of_mem entry hm))
    refine ⟨?_, hrest.2.1, hrest.2.2.1, ?_⟩
    · simp only [List.mem_cons, not_or]
      exact ⟨hfname, hrest.1⟩
    · simp only [List.mem_cons, not_or]
      exact ⟨hfname, hrest.2.2.2⟩
  | case8 entry rest hlen hnUU hnR hnQQ hBlank ih =>
    intro res hparse honly hraw
    rw [parsePorcelainEntries.eq_def] at hparse
    dsimp only at hparse
    rw [if_neg hlen, if_neg hnUU, if_neg hnR, if_neg hnQQ, if_neg hBlank] at hparse
    obtain ⟨r, hr, rfl⟩ := Option.map_eq_some'.mp hparse
    have hfname : ¬ f = strDrop entry 3 := fun h =>
      hnUU (honly entry (List.mem_cons_self _ _) h.symm)
    have hrest := ih r hr (fun e he hd => honly e (List.mem_cons_of_mem entry he) hd)
      (fun hm => hraw (List.mem_cons_of_mem entry hm))
    refine ⟨?_, hrest.2.1, hrest.2.2.1, hrest.2.2.2⟩
    simp only [List.mem_cons, not_or]
    exact ⟨hfname, hrest.1⟩

theorem parsePorcelainEntries_logs (f : String) (entries : List String) :
    ∀ res : StatusLists,
    parsePorcelainEntries entries = some res →
    (∀ e ∈ entries, ¬ strTake (strTake e 2) 1 = "R") →
    (∃ e ∈ entries, strTake e 2 = "UU" ∧ strDrop e 3 = f) →
    f ∈ res.loggedUnmerged := by
  induction entries using parsePorcelainEntries.induct with
  | case1 =>
    intro res _ _ hex
    simp at hex
  | case2 entry rest hlen =>
    intro res hparse _ _
    rw [parsePorcelainEntries.eq_def] at hparse
    dsimp only at hparse
    rw [if_pos hlen] at hparse
    exact Option.noConfusion hparse
  | case3 entry rest hlen hUU ih =>
    intro res hparse hnoR hex
    rw [parsePorcelainEntries.eq_def] at hparse
    dsimp only at hparse
    rw [if_neg hlen, if_pos hUU] at hparse
    obtain ⟨r, hr, rfl⟩ := Option.map_eq_some'.mp hparse
    obtain ⟨e, he, heUU, hef⟩ := hex
    rcases List.mem_cons.mp he with rfl | he2
    · exact hef ▸ List.mem_cons_self _ _
    · exact List.mem_cons_of_mem _
        (ih r hr (fun x hx => hnoR x (List.mem_cons_of_mem entry hx)) ⟨e, he2, heUU, hef⟩)
  | case4 entry hlen hnUU hR =>
    intro res hparse hnoR _
    exact absurd hR (hnoR entry (List.mem_cons_self _ _))
  | case5 entry hlen hnUU hR renamedFile rest2 ih =>
    intro res hparse hnoR _
    exact absurd hR (hnoR entry (List.mem_cons_self _ _))
  | case6 entry rest hlen hnUU hnR hQQ ih =>
    intro res hparse hnoR hex
    rw [parsePorcelainEntries.eq_def] at hparse
    dsimp only at hparse
    rw [if_neg hlen, if_neg hnUU, if_neg hnR, if_pos hQQ] at hparse
    obtain ⟨r, hr, rfl⟩ := Option.map_eq_some'.mp hparse
    obtain ⟨e, he, heUU, hef⟩ := hex
    rcases List.mem_cons.mp he with rfl | he2
    · exact absurd heUU hnUU
    · exact ih r hr (fun x hx => hnoR x (List.mem_cons_of_mem entry hx)) ⟨e, he2, heUU, hef⟩
  | case7 entry rest hlen hnUU hnR hnQQ hUnst ih =>
    intro res hparse hnoR hex
    rw [parsePorcelainEntries.eq_def] at hparse
    dsimp only at hparse
    rw [if_neg hlen, if_neg hnUU, if_neg hnR, if_neg hnQQ, if_pos hUnst] at hparse
    obtain ⟨r, hr, rfl⟩ := Option.map_eq_some'.mp hparse
    obtain ⟨e, he, heUU, hef⟩ := hex
    rcases List.mem_cons.mp he with rfl | he2
    · exact absurd heUU hnUU
    · exact ih r hr (fun x hx => hnoR x (List.mem_cons_of_mem entry hx)) ⟨e, he2, heUU, hef⟩
  | case8 entry rest hlen hnUU hnR hnQQ hBlank ih =>
    intro res hparse hnoR hex
    rw [parsePorcelainEntries.eq_def] at hparse
    dsimp only at hparse
    rw [if_neg hlen, if_neg hnUU, if_neg hnR, if_neg hnQQ, if_neg hBlank] at hparse
    obtain ⟨r, hr, rfl⟩ := Option.map_eq_some'.mp hparse
    obtain ⟨e, he, heUU, hef⟩ := hex
    rcases List.mem_cons.mp he with rfl | he2
    · exact absurd heUU hnUU
    · exact ih r hr (fun x hx => hnoR x (List.mem_cons_of_mem entry hx)) ⟨e, he2, heUU, hef⟩

/-- C8: every porcelain status entry whose two-character status code is
`UU` is excluded from the modified, untracked, renamed and unstaged lists
returned by `ParsePorcelainStatus`, and (on rename-free inputs, where no
entry is consumed as a raw rename target) its path is logged as an ignored
unmerged file.  The path `f` is assumed to occur only as the file name of
`UU` entries and not as a raw entry of its own. -/
theorem C8_unmerged_conflicts_excluded (data f : String) (res : StatusLists)
    (hparse : ParsePorcelainStatus data = some res)
    (honly : ∀ e ∈ SplitNullTerminated data, strDrop e 3 = f → strTake e 2 = "UU")
    (hraw : f ∉ SplitNullTerminated data) :
    (f ∉ res.modifiedFiles ∧ f ∉ res.untrackedFiles ∧ f ∉ res.renamedFiles ∧
      f ∉ res.unstagedFiles) ∧
    ((∀ e ∈ SplitNullTerminated data, ¬ strTake (strTake e 2) 1 = "R") →
      (∃ e ∈ SplitNullTerminated data, strTake e 2 = "UU" ∧ strDrop e 3 = f) →
      f ∈ res.loggedUnmerged) :=
  ⟨parsePorcelainEntries_excludes f (SplitNullTerminated data) res hparse honly hraw,
   fun hnoR hex => parsePorcelainEntries_logs f (SplitNullTerminated data) res hparse hnoR hex⟩

/-- Witness for C8 on a concrete porcelain status stream containing an
unmerged conflict, a plain modification and an untracked file. -/
theorem C8_unmerged_conflicts_excluded_witness :
    (("conflict.txt" : String) ∉
        (⟨["a.go", "new.txt"], ["new.txt"], [], [], ["conflict.txt"]⟩ : StatusLists).modifiedFiles ∧
      ("conflict.txt" : String) ∉
        (⟨["a.go", "new.txt"], ["new.txt"], [], [], ["conflict.txt"]⟩ : StatusLists).untrackedFiles ∧
      ("conflict.txt" : String) ∉
        (⟨["a.go", "new.txt"], ["new.txt"], [], [], ["conflict.txt"]⟩ : StatusLists).renamedFiles ∧
      ("conflict.txt" : String) ∉
        (⟨["a.go", "new.txt"], ["new.txt"], [], [], ["conflict.txt"]⟩ : StatusLists).unstagedFiles) ∧
    ((∀ e ∈ SplitNullTerminated (JoinNullTerminated ["UU conflict.txt", "M  a.go", "?? new.txt"]),
        ¬ strTake (strTake e 2) 1 = "R") →
      (∃ e ∈ SplitNullTerminated (JoinNullTerminated ["UU conflict.txt", "M  a.go", "?? new.txt"]),
        strTake e 2 = "UU" ∧ strDrop e 3 = "conflict.txt") →
      ("conflict.txt" : String) ∈
        (⟨["a.go", "new.txt"], ["new.txt"], [], [], ["conflict.txt"]⟩ : StatusLists).loggedUnmerged) :=
  C8_unmerged_conflicts_excluded
    (JoinNullTerminated ["UU conflict.txt", "M  a.go", "?? new.txt"]) "conflict.txt"
    ⟨["a.go", "new.txt"], ["new.txt"], [], [], ["conflict.txt"]⟩
    rfl (by decide) (by decide)

/-! ## The fast path: `getChangesViaFsMonitor` (`git-sync.go`) -/

/-- Go `path.Join(a, b)` on already-clean path fragments. -/
def pathJoin (a b : String) : String :=
  a ++ "/" ++ b

/-- `getChangesViaFsMonitor`, result-handling part.  Oracles: `isDir` models
`os.Stat(path.Join(workdir, fname)).IsDir()`, `checkIgnore` models
`gitapi.GitCheckIgnore` (queried paths to ignored paths), and `fsMonOut` is
the notification helper's stdout or its failure (timeout, non-zero exit).
On success the helper output is split on NUL; more than 100 paths or the
single wildcard path `/` yield `(nil, nil)`; otherwise empty paths, `.git`,
`.git/`-prefixed paths and directories are filtered out, the survivors are
deduplicated (`filteredFileSet` is a Go set), and if any remain they are run
through the ignore query and the ignored ones dropped. -/
def getChangesViaFsMonitor (isDir : String → Bool)
    (checkIgnore : List String → Except GoError (List String))
    (workdir : String) (fsMonOut : Except GoError String) :
    Except GoError (List String) :=
  match fsMonOut with
  | .error e => .error e
  | .ok out =>
    if (SplitNullTerminated out).length > 100 then .ok []
    else if (SplitNullTerminated out).length = 1 ∧
        (SplitNullTerminated out).headD "" = "/" then .ok []
    else
      if ((SplitNullTerminated out).filter (fun fname =>
          !(fname == "") && !(fname == ".git") && !(strStartsWith fname ".git/") &&
          !(isDir (pathJoin workdir fname)))).dedup.isEmpty then
        .ok ((SplitNullTerminated out).filter (fun fname =>
          !(fname == "") && !(fname == ".git") && !(strStartsWith fname ".git/") &&
          !(isDir (pathJoin workdir fname)))).dedup
      else
        match checkIgnore ((SplitNullTerminated out).filter (fun fname =>
            !(fname == "") && !(fname == ".git") && !(strStartsWith fname ".git/") &&
            !(isDir (pathJoin workdir fname)))).dedup with
        | .error e => .error e
        | .ok ignoredFilePaths =>
          .ok (((SplitNullTerminated out).filter (fun fname =>
            !(fname == "") && !(fname == ".git") && !(strStartsWith fname ".git/") &&
            !(isDir (pathJoin workdir fname)))).dedup.filter
              (fun fname => !(ignoredFilePaths.contains fname)))

/-- C3: on a usable helper result (at most 100 paths, not the wildcard), the
fast path keeps exactly the helper paths that are non-empty, are not the
version-control metadata directory `.git` or inside it, are not directories
in the working tree, and are not ignored; in particular no empty path, no
`.git` path, no directory and no ignored path survives, and every surviving
non-ignored file is kept.  `isIgnored` is the ignore oracle behind the
`git check-ignore` query. -/
theorem C3_fast_path_filters (isDir isIgnored : String → Bool)
    (workdir out : String) (paths result : List String) (p : String)
    (hsplit : SplitNullTerminated out = paths)
    (hcap : ¬ paths.length > 100)
    (hwild : ¬ paths = ["/"])
    (hrun : getChangesViaFsMonitor isDir (fun q => .ok (q.filter isIgnored)) workdir
      (.ok out) = .ok result) :
    p ∈ result ↔
      (p ∈ paths ∧ ¬ p = "" ∧ ¬ p = ".git" ∧ strStartsWith p ".git/" = false ∧
        isDir (pathJoin workdir p) = false ∧ isIgnored p = false) := by
  rw [getChangesViaFsMonitor.eq_def] at hrun
  dsimp only at hrun
  rw [hsplit] at hrun
  rw [if_neg hcap] at hrun
  have hw2 : ¬ (paths.length = 1 ∧ paths.headD "" = "/") := by
    rintro ⟨h1, h2⟩
    obtain ⟨a, rfl⟩ := List.length_eq_one.mp h1
    exact hwild (by simpa using congrArg (fun x => [x]) h2)
  rw [if_neg hw2] at hrun
  by_cases hemp : (paths.filter (fun fname =>
      !(fname == "") && !(fname == ".git") && !(strStartsWith fname ".git/") &&
      !(isDir (pathJoin workdir fname)))).dedup.isEmpty
  · rw [if_pos hemp] at hrun
    rw [List.isEmpty_iff] at hemp
    injection hrun with h
    subst h
    rw [hemp]
    simp only [List.not_mem_nil, false_iff, not_and]
    intro hmem hne hngit hnpre hndir
    have : p ∈ (paths.filter (fun fname =>
        !(fname == "") && !(fname == ".git") && !(strStartsWith fname ".git/") &&
        !(isDir (pathJoin workdir fname)))).dedup := by
      rw [List.mem_dedup, List.mem_filter]
      refine ⟨hmem, ?_⟩
      simp only [Bool.and_eq_true, Bool.not_eq_true', beq_eq_false_iff_ne, ne_eq]
      exact ⟨⟨⟨hne, hngit⟩, hnpre⟩, hndir⟩
    rw [hemp] at this
    exact absurd this (List.not_mem_nil p)
  · rw [if_neg hemp] at hrun
    injection hrun with h
    subst h
    rw [List.mem_filter, List.mem_dedup, List.mem_filter]
    simp only [Bool.and_eq_true, Bool.not_eq_true', beq_eq_false_iff_ne, ne_eq]
    constructor
    · rintro ⟨⟨hmem, ⟨⟨hne, hngit⟩, hnpre⟩, hndir⟩, hncont⟩
      refine ⟨hmem, hne, hngit, hnpre, hndir, ?_⟩
      cases hign : isIgnored p
      · rfl
      · exfalso
        have hmem2 : p ∈ (paths.filter (fun fname =>
            !(fname == "") && !(fname == ".git") && !(strStartsWith fname ".git/") &&
            !(isDir (pathJoin workdir fname)))).dedup.filter isIgnored := by
          rw [List.mem_filter, List.mem_dedup, List.mem_filter]
          refine ⟨⟨hmem, ?_⟩, hign⟩
          simp only [Bool.and_eq_true, Bool.not_eq_true', beq_eq_false_iff_ne, ne_eq]
          exact ⟨⟨⟨hne, hngit⟩, hnpre⟩, hndir⟩
        rw [← List.elem_iff] at hmem2
        have hcontains : ((paths.filter (fun fname =>
            !(fname == "") && !(fname == ".git") && !(strStartsWith fname ".git/") &&
            !(isDir (pathJoin workdir fname)))).dedup.filter isIgnored).contains p = true :=
          hmem2
        rw [hncont] at hcontains
        exact Bool.noConfusion hcontains
    · rintro ⟨hmem, hne, hngit, hnpre, hndir, hnign⟩
      refine ⟨⟨hmem, ⟨⟨⟨hne, hngit⟩, hnpre⟩, hndir⟩⟩, ?_⟩
      cases hcont : ((paths.filter (fun fname =>
          !(fname == "") && !(fname == ".git") && !(strStartsWith fname ".git/") &&
          !(isDir (pathJoin workdir fname)))).dedup.filter isIgnored).contains p
      · rfl
      · exfalso
        have helem : List.elem p ((paths.filter (fun fname =>
            !(fname == "") && !(fname == ".git") && !(strStartsWith fname ".git/") &&
            !(isDir (pathJoin workdir fname)))).dedup.filter isIgnored) = true := hcont
        have hmem3 := List.elem_iff.mp helem
        rw [List.mem_filter] at hmem3
        rw [hnign] at hmem3
        exact Bool.noConfusion hmem3.2

/-- Witness for C3 on a concrete helper result containing an empty path, a
`.git` path, a `.git/`-internal path, a directory and an ignored file. -/
theorem C3_fast_path_filters_witness :
    ("a.go" : String) ∈ ["a.go"] ↔
      (("a.go" : String) ∈ ["a.go", "", ".git", ".git/config", "sub", "ign.o"] ∧
        ¬ ("a.go" : String) = "" ∧ ¬ ("a.go" : String) = ".git" ∧
        strStartsWith "a.go" ".git/" = false ∧
        (fun s => s == "/w/sub") (pathJoin "/w" "a.go") = false ∧
        (fun s => s == "ign.o") "a.go" = false) :=
  C3_fast_path_filters (fun s => s == "/w/sub") (fun s => s == "ign.o") "/w"
    (JoinNullTerminated ["a.go", "", ".git", ".git/config", "sub", "ign.o"])
    ["a.go", "", ".git", ".git/config", "sub", "ign.o"] ["a.go"] "a.go"
    (by decide) (by decide) (by decide) rfl

/-! ## Manifest sanitization: `topmostMissingDir` and `rsyncPushCmd`
(`git-sync.go`) -/

/-- Go `strings.Split` with a single-character separator. -/
def splitOnChar (sep : Char) : List Char → List String
  | [] => [""]
  | c :: cs =>
    if c = sep then "" :: splitOnChar sep cs
    else
      match splitOnChar sep cs with
      | [] => [⟨[c]⟩]
      | r :: rs => ⟨c :: r.data⟩ :: rs

/-- Go `strings.Trim(s, "/")`. -/
def trimSlashes (s : String) : String :=
  ⟨((s.data.dropWhile (fun c => c = '/')).reverse.dropWhile (fun c => c = '/')).reverse⟩

/-- The walk of `topmostMissingDir`: `dir` is the absolute path joined so
far, `rel` its components relative to the working directory (so that
`filepath.Rel(workdir, dir)` is their `/`-join), `names` the remaining path
components.  Returns the relative path of the first still-missing component
with the `/` suffix rsync expects for directories; `none` models the Go
panic when every component exists.  `statExists` is the `os.Stat` oracle
(`false` models `os.IsNotExist`). -/
def topmostMissingDirAux (statExists : String → Bool) : String → List String →
    List String → Option String
  | _, _, [] => none
  | dir, rel, name :: names =>
    if statExists (pathJoin dir name) then
      topmostMissingDirAux statExists (pathJoin dir name) (rel ++ [name]) names
    else some (strJoin "/" (rel ++ [name]) ++ "/")

/-- `topmostMissingDir` (`git-sync.go`): split the file name on `/` after
trimming outer slashes, then walk from the working-tree root towards the
file until a component no longer exists. -/
def topmostMissingDir (statExists : String → Bool) (workdir fname : String) :
    Option String :=
  topmostMissingDirAux statExists workdir [] (splitOnChar '/' (trimSlashes fname).data)

/-- One iteration of the sanitization loop in `rsyncPushCmd`: a path whose
local file still exists is kept verbatim; a missing one is replaced by its
topmost missing ancestor directory. -/
def sanitizeOne (statExists : String → Bool) (workdir fpath : String) : Option String :=
  if statExists (pathJoin workdir fpath) then some fpath
  else topmostMissingDir statExists workdir fpath

/-- The sanitization loop of `rsyncPushCmd` over the whole change set
(`none` propagates the panic case). -/
def sanitizeList (statExists : String → Bool) (workdir : String) :
    List String → Option (List String)
  | [] => some []
  | fpath :: rest =>
    match sanitizeOne statExists workdir fpath, sanitizeList statExists workdir rest with
    | some y, some ys => some (y :: ys)
    | _, _ => none

/-- The sanitized, deduplicated (`sanitizedFileSet`), sorted manifest that
`rsyncPushCmd` writes to the temporary `--files-from` file. -/
def rsyncPushManifest (statExists : String → Bool) (workdir : String)
    (filePaths : List String) : Option (List String) :=
  (sanitizeList statExists workdir filePaths).map (fun l => sortStrings l.dedup)

theorem strEndsWith_append_slash (x : String) : strEndsWith (x ++ "/") "/" = true := by
  have hdata : (x ++ "/").data = x.data ++ ['/'] := String.data_append x "/"
  rw [strEndsWith, hdata]
  have : ("/" : String).data = ['/'] := rfl
  rw [this]
  rw [List.isSuffixOf_iff_suffix]
  exact ⟨x.data, rfl⟩

theorem topmostMissingDirAux_slash (statExists : String → Bool)
    (names : List String) :
    ∀ dir rel t, topmostMissingDirAux statExists dir rel names = some t →
      strEndsWith t "/" = true := by
  induction names with
  | nil => intro dir rel t h; exact Option.noConfusion h
  | cons name names ih =>
    intro dir rel t h
    rw [topmostMissingDirAux] at h
    by_cases hex : statExists (pathJoin dir name)
    · rw [if_pos hex] at h
      exact ih (pathJoin dir name) (rel ++ [name]) t h
    · rw [if_neg hex] at h
      injection h with h2
      rw [← h2]
      exact strEndsWith_append_slash _

theorem topmostMissingDir_slash (statExists : String → Bool)
    (workdir fname t : String)
    (h : topmostMissingDir statExists workdir fname = some t) :
    strEndsWith t "/" = true :=
  topmostMissingDirAux_slash statExists _ workdir [] t h

theorem sanitizeList_mem_of (statExists : String → Bool) (workdir : String)
    (filePaths : List String) :
    ∀ l, sanitizeList statExists workdir filePaths = some l →
    ∀ fpath ∈ filePaths, ∃ y ∈ l, sanitizeOne statExists workdir fpath = some y := by
  induction filePaths with
  | nil => intro l _ fpath hf; exact absurd hf (List.not_mem_nil fpath)
  | cons a rest ih =>
    intro l hl fpath hf
    rw [sanitizeList] at hl
    cases ha : sanitizeOne statExists workdir a with
    | none => rw [ha] at hl; exact Option.noConfusion hl
    | some y =>
      cases hrest : sanitizeList statExists workdir rest with
      | none => rw [ha, hrest] at hl; exact Option.noConfusion hl
      | some ys =>
        rw [ha, hrest] at hl
        injection hl with hl2
        subst hl2
        rcases List.mem_cons.mp hf with rfl | hf2
        · exact ⟨y, List.mem_cons_self _ _, ha⟩
        · obtain ⟨z, hz, hz2⟩ := ih ys hrest fpath hf2
          exact ⟨z, List.mem_cons_of_mem y hz, hz2⟩

theorem sanitizeList_src (statExists : String → Bool) (workdir : String)
    (filePaths : List String) :
    ∀ l, sanitizeList statExists workdir filePaths = some l →
    ∀ y ∈ l, ∃ x ∈ filePaths, sanitizeOne statExists workdir x = some y := by
  induction filePaths with
  | nil =>
    intro l hl y hy
    rw [sanitizeList] at hl
    injection hl with hl2
    subst hl2
    exact absurd hy (List.not_mem_nil y)
  | cons a rest ih =>
    intro l hl y hy
    rw [sanitizeList] at hl
    cases ha : sanitizeOne statExists workdir a with
    | none => rw [ha] at hl; exact Option.noConfusion hl
    | some z =>
      cases hrest : sanitizeList statExists workdir rest with
      | none => rw [ha, hrest] at hl; exact Option.noConfusion hl
      | some zs =>
        rw [ha, hrest] at hl
        injection hl with hl2
        subst hl2
        rcases List.mem_cons.mp hy with rfl | hy2
        · exact ⟨a, List.mem_cons_self _ _, ha⟩
        · obtain ⟨x, hx, hx2⟩ := ih zs hrest y hy2
          exact ⟨x, List.mem_cons_of_mem a hx, hx2⟩

theorem mem_rsyncPushManifest (statExists : String → Bool) (workdir : String)
    (filePaths l manifest : List String)
    (hl : sanitizeList statExists workdir filePaths = some l)
    (hrun : rsyncPushManifest statExists workdir filePaths = some manifest) :
    ∀ y, y ∈ manifest ↔ y ∈ l := by
  intro y
  rw [rsyncPushManifest, hl] at hrun
  injection hrun with h2
  subst h2
  show y ∈ sortStrings l.dedup ↔ y ∈ l
  rw [show sortStrings l.dedup =
      List.insertionSort (fun a b => strLe a b = true) l.dedup from rfl,
    (List.perm_insertionSort (fun a b => strLe a b = true) _).mem_iff, List.mem_dedup]

/-- C7: every changed path whose local file no longer exists is replaced in
the sanitized push manifest by its nearest still-missing ancestor — the
first path component, walking from the working-tree root toward the file,
that does not exist — suffixed with `/`, and the original path itself does
not appear in the manifest. -/
theorem C7_missing_path_replaced (statExists : String → Bool)
    (workdir fpath : String) (filePaths manifest : List String)
    (hmem : fpath ∈ filePaths)
    (hmissing : statExists (pathJoin workdir fpath) = false)
    (hnodir : strEndsWith fpath "/" = false)
    (hrun : rsyncPushManifest statExists workdir filePaths = some manifest) :
    ∃ t, topmostMissingDir statExists workdir fpath = some t ∧ t ∈ manifest ∧
      strEndsWith t "/" = true ∧ fpath ∉ manifest := by
  obtain ⟨l, hl⟩ : ∃ l, sanitizeList statExists workdir filePaths = some l := by
    cases hcase : sanitizeList statExists workdir filePaths with
    | none =>
      rw [rsyncPushManifest, hcase] at hrun
      exact Option.noConfusion hrun
    | some l => exact ⟨l, rfl⟩
  have hiff := mem_rsyncPushManifest statExists workdir filePaths l manifest hl hrun
  obtain ⟨y, hy, hy2⟩ := sanitizeList_mem_of statExists workdir filePaths l hl fpath hmem
  rw [sanitizeOne, if_neg (by rw [hmissing]; exact Bool.noConfusion)] at hy2
  refine ⟨y, hy2, (hiff y).mpr hy, topmostMissingDir_slash statExists workdir fpath y hy2, ?_⟩
  intro hinman
  obtain ⟨x, hx, hx2⟩ := sanitizeList_src statExists workdir filePaths l hl fpath
    ((hiff fpath).mp hinman)
  rw [sanitizeOne] at hx2
  by_cases hex : statExists (pathJoin workdir x)
  · rw [if_pos hex] at hx2
    injection hx2 with hx3
    subst hx3
    rw [hmissing] at hex
    exact Bool.noConfusion hex
  · rw [if_neg hex] at hx2
    have := topmostMissingDir_slash statExists workdir x fpath hx2
    rw [hnodir] at this
    exact Bool.noConfusion this

/-- Witness for C7: `d/x.txt` no longer exists and neither does `d`; the
manifest receives `d/` and not `d/x.txt`. -/
theorem C7_missing_path_replaced_witness :
    ∃ t, topmostMissingDir (fun s => s == "/w/keep.go") "/w" "d/x.txt" = some t ∧
      t ∈ ["d/", "keep.go"] ∧ strEndsWith t "/" = true ∧
      ("d/x.txt" : String) ∉ ["d/", "keep.go"] :=
  C7_missing_path_replaced (fun s => s == "/w/keep.go") "/w" "d/x.txt"
    ["d/x.txt", "keep.go"] ["d/", "keep.go"] (by decide) (by decide) (by decide) rfl

/-! ## The orchestrator: `fullSync` (`git-sync.go`)

`fullSync` is embedded as a function of an environment record holding the
outcome of every external interaction of one run: the lock acquisition, the
cookie/state read, the fast-path query, the slow-path queries, the remote
reconciliation script, the rsync transfer and the remote staging command.
The speculative background fetch is omitted from the outcome: its result is
only waited for and logged, never propagated.  The outcome records the
returned value, whether the rsync transfer stage was entered, and whether
the sync cookie write was attempted (`writeSyncCookie` failure itself is
logged, not fatal, so the attempt is what the invariant governs). -/

structure SyncEnv where
  lockResult : Except GoError Unit
  readCookie : Except GoError SyncCookie
  fsmonitorResult : Except GoError (List String)
  statusChanges : Except GoError (List String)
  syncCmdResult : Except GoError Unit
  rsyncResult : Except GoError Unit
  stageResult : Except GoError Unit

structure FullSyncOutcome where
  result : Except GoError (List String)
  rsyncRan : Bool
  cookieWritten : Bool

/-- The fast-detection attempt at the top of `fullSync`: only when the git
state is unchanged and the fsmonitor helper is configured; a helper error is
logged and leaves `foundResults` false. -/
def fastPathChanges (cfg : Config) (env : SyncEnv) (sc : SyncCookie) :
    Option (List String) :=
  if !sc.gitStateChanged && cfg.fsmonitorEnabled then
    match env.fsmonitorResult with
    | .ok files => some files
    | .error _ => none
  else none

/-- The change-detection phase of `fullSync`: fast-path results are used as
is; otherwise the remote reconciliation script runs concurrently with
`getChangesViaStatus`, the local result is awaited first (its failure is
fatal), then the script result, where exit status 255 is re-labeled as an
ssh connectivity error naming the remote address. -/
def fullSyncDetect (cfg : Config) (env : SyncEnv) (sc : SyncCookie) :
    Except GoError (List String) :=
  match fastPathChanges cfg env sc with
  | some files => .ok files
  | none =>
    match env.statusChanges with
    | .error e => .error e
    | .ok changedFiles =>
      match env.syncCmdResult with
      | .ok _ => .ok changedFiles
      | .error e =>
        if (match exitStatus e with | .ok rc => rc == 255 | .error _ => false) then
          .error (.errorf ("ssh unable to connect to host " ++ cfg.remoteSSHAddr))
        else .error e

/-- `fullSync` (`git-sync.go`): lock, read cookie and current state, detect
changes (fast or slow path plus remote reconciliation), transfer with rsync
and stage the changes remotely when the change set is non-empty, and update
the sync cookie only when some changes were sent or the git state changed
(`updateSyncCookie := len(changedFiles) > 0 || sc.gitStateChanged()`). -/
def fullSync (cfg : Config) (env : SyncEnv) : FullSyncOutcome :=
  match env.lockResult with
  | .error e => ⟨.error e, false, false⟩
  | .ok _ =>
    match env.readCookie with
    | .error e => ⟨.error e, false, false⟩
    | .ok sc =>
      match fullSyncDetect cfg env sc with
      | .error e => ⟨.error e, false, false⟩
      | .ok changedFiles =>
        if changedFiles.isEmpty then
          ⟨.ok changedFiles, false, sc.gitStateChanged⟩
        else
          match env.rsyncResult with
          | .error e => ⟨.error e, true, false⟩
          | .ok _ =>
            match env.stageResult with
            | .error e => ⟨.error e, true, false⟩
            | .ok _ => ⟨.ok changedFiles, true, true⟩

/-- C1: `fullSync` attempts to write the sync cookie back iff the run
completes successfully and either the change set is non-empty or the
version-control state changed since the persisted cookie; in particular a
completed run with an empty change set and unchanged state, and every
aborted run, leaves the cookie file untouched. -/
theorem C1_cookie_written_iff (cfg : Config) (env : SyncEnv) :
    (fullSync cfg env).cookieWritten = true ↔
      ∃ sc changedFiles, env.readCookie = .ok sc ∧
        (fullSync cfg env).result = .ok changedFiles ∧
        (¬ changedFiles = [] ∨ sc.gitStateChanged = true) := by
  cases hlock : env.lockResult with
  | error e =>
    simp only [fullSync, hlock]
    simp
  | ok u =>
    cases hcookie : env.readCookie with
    | error e =>
      simp only [fullSync, hlock, hcookie]
      simp
    | ok sc =>
      cases hdetect : fullSyncDetect cfg env sc with
      | error e =>
        simp only [fullSync, hlock, hcookie, hdetect]
        simp
      | ok changedFiles =>
        cases hemp : changedFiles.isEmpty with
        | true =>
          have hnil := List.isEmpty_iff.mp hemp
          subst hnil
          simp only [fullSync, hlock, hcookie, hdetect, List.isEmpty_nil, if_true]
          constructor
          · intro h
            exact ⟨sc, [], rfl, rfl, Or.inr h⟩
          · rintro ⟨sc2, cf, hsc, hcf, hor⟩
            injection hsc with hsc2
            injection hcf with hcf2
            subst hsc2
            rcases hor with hne | hch
            · exact absurd hcf2.symm hne
            · exact hch
        | false =>
          have hnotemp : ¬ changedFiles.isEmpty = true := by
            rw [hemp]
            exact Bool.noConfusion
          have hne : ¬ changedFiles = [] := by
            intro hc
            subst hc
            exact Bool.noConfusion hemp
          simp only [fullSync, hlock, hcookie, hdetect, if_neg hnotemp]
          cases hrsync : env.rsyncResult with
          | error e =>
            constructor
            · intro h
              exact Bool.noConfusion h
            · rintro ⟨sc2, cf, hsc, hcf, hor⟩
              exact Except.noConfusion hcf
          | ok u2 =>
            cases hstage : env.stageResult with
            | error e =>
              constructor
              · intro h
                exact Bool.noConfusion h
              · rintro ⟨sc2, cf, hsc, hcf, hor⟩
                exact Except.noConfusion hcf
            | ok u3 =>
              constructor
              · intro _
                exact ⟨sc, changedFiles, rfl, rfl, Or.inl hne⟩
              · intro _
                rfl

/-- C9: when the remote reconciliation script fails, `fullSync` aborts
before the transfer stage and before any cookie write; an exit status of 255
is re-labeled as a distinguished connectivity error naming the remote ssh
address, and any other failure is returned unchanged. -/
theorem C9_ssh_transport_error_relabeled (cfg : Config) (env : SyncEnv)
    (sc : SyncCookie) (changedFiles : List String) (e : GoError)
    (hlock : env.lockResult = .ok ())
    (hcookie : env.readCookie = .ok sc)
    (hfast : fastPathChanges cfg env sc = none)
    (hstatus : env.statusChanges = .ok changedFiles)
    (hsync : env.syncCmdResult = .error e) :
    (fullSync cfg env).rsyncRan = false ∧
    (fullSync cfg env).cookieWritten = false ∧
    (∀ stderr, e = .exitError 255 stderr →
      (fullSync cfg env).result =
        .error (.errorf ("ssh unable to connect to host " ++ cfg.remoteSSHAddr))) ∧
    ((∀ stderr, ¬ e = .exitError 255 stderr) →
      (fullSync cfg env).result = .error e) := by
  cases h255 : (match exitStatus e with | .ok rc => rc == 255 | .error _ => false) with
  | true =>
    have hdetect : fullSyncDetect cfg env sc =
        .error (.errorf ("ssh unable to connect to host " ++ cfg.remoteSSHAddr)) := by
      simp only [fullSyncDetect, hfast, hstatus, hsync]
      rw [h255, if_pos rfl]
    refine ⟨?_, ?_, ?_, ?_⟩
    · simp only [fullSync, hlock, hcookie, hdetect]
    · simp only [fullSync, hlock, hcookie, hdetect]
    · intro stderr heq
      simp only [fullSync, hlock, hcookie, hdetect]
    · intro hall
      exfalso
      cases e with
      | exitError n s =>
        have hbeq : (n == 255) = true := by simpa [exitStatus] using h255
        have hn : n = 255 := by exact_mod_cast of_decide_eq_true hbeq
        exact hall s (by rw [hn])
      | errorf m =>
        simp [exitStatus] at h255
  | false =>
    have hdetect : fullSyncDetect cfg env sc = .error e := by
      simp only [fullSyncDetect, hfast, hstatus, hsync]
      rw [h255, if_neg Bool.false_ne_true]
    refine ⟨?_, ?_, ?_, ?_⟩
    · simp only [fullSync, hlock, hcookie, hdetect]
    · simp only [fullSync, hlock, hcookie, hdetect]
    · intro stderr heq
      exfalso
      subst heq
      simp [exitStatus] at h255
    · intro _
      simp only [fullSync, hlock, hcookie, hdetect]

/-- A concrete configuration whose remote URL is `host:/dir` and whose
fsmonitor helper is not configured. -/
def sshErrCfg : Config :=
  ⟨"", "git", "git", "rsync", "rsync", "", [], "sync", "host:/dir", []⟩

/-- A run environment in which the remote reconciliation script fails with
ssh exit status 255. -/
def sshErrEnv : SyncEnv :=
  ⟨.ok (), .ok ⟨"h", "m", 0, "h", "m", 0⟩, .ok [], .ok ["f.go"],
   .error (.exitError 255 "boom"), .ok (), .ok ()⟩

/-- Witness for C9 on the concrete exit-255 environment. -/
theorem C9_ssh_transport_error_relabeled_witness :
    (fullSync sshErrCfg sshErrEnv).rsyncRan = false ∧
    (fullSync sshErrCfg sshErrEnv).cookieWritten = false ∧
    (∀ stderr, (GoError.exitError 255 "boom") = .exitError 255 stderr →
      (fullSync sshErrCfg sshErrEnv).result =
        .error (.errorf ("ssh unable to connect to host " ++ sshErrCfg.remoteSSHAddr))) ∧
    ((∀ stderr, ¬ (GoError.exitError 255 "boom") = .exitError 255 stderr) →
      (fullSync sshErrCfg sshErrEnv).result = .error (.exitError 255 "boom")) :=
  C9_ssh_transport_error_relabeled sshErrCfg sshErrEnv ⟨"h", "m", 0, "h", "m", 0⟩
    ["f.go"] (.exitError 255 "boom") rfl rfl rfl rfl rfl

/-! ## C6: the fast-path fallback contract -/

/-- A helper output reporting 101 changed paths. -/
def fsmonOverflowOut : String :=
  JoinNullTerminated (List.replicate 101 "f")

/-- A configuration with the fsmonitor helper enabled. -/
def overflowCfg : Config :=
  ⟨"", "git", "git", "rsync", "rsync", "watchman", [], "sync", "host:/dir", []⟩

/-- A run whose git state is unchanged, whose helper reports 101 paths, and
whose slow-path query would report one changed file. -/
def overflowEnv : SyncEnv :=
  ⟨.ok (), .ok ⟨"h", "m", 0, "h", "m", 0⟩,
   getChangesViaFsMonitor (fun _ => false) (fun _ => .ok []) "/w" (.ok fsmonOverflowOut),
   .ok ["changed.go"], .ok (), .ok (), .ok ()⟩

/-- C6 (code-bug evaluation at the failing input): when the helper reports
101 changed paths, `getChangesViaFsMonitor` returns an empty list with a nil
error — the function's own comment says this "pretend[s] we couldn't get
results" so that a full (slow-path) sync happens — but `fullSync` marks any
nil-error result as found (`foundResults = true`), never consults the
slow-path query (which reports `changed.go`), transfers nothing and
completes successfully with an empty change set.  The orchestrator therefore
does not fall back to the slow path on an oversized helper result,
contradicting the claimed (and commented) contract. -/
theorem C6_overflow_result_not_fallback :
    getChangesViaFsMonitor (fun _ => false) (fun _ => .ok []) "/w"
      (.ok fsmonOverflowOut) = .ok [] ∧
    overflowEnv.statusChanges = .ok ["changed.go"] ∧
    (fullSync overflowCfg overflowEnv).result = .ok [] ∧
    (fullSync overflowCfg overflowEnv).rsyncRan = false ∧
    (fullSync overflowCfg overflowEnv).cookieWritten = false :=
  ⟨rfl, rfl, rfl, rfl, rfl⟩

/-- C8 counterexample: the parser excludes an unmerged `UU` entry from all
its lists, yet the same path still appears in the slow-path change set
whenever the committed-diff query against the merge base reports it (the
union in `getChangesViaStatus` adds diff results unfiltered), so a
conflicted path is not excluded from every change set. -/
theorem C8_conflict_in_change_set_counterexample :
    ParsePorcelainStatus (JoinNullTerminated ["UU c.txt"]) =
      some ⟨[], [], [], [], ["c.txt"]⟩ ∧
    ("c.txt" : String) ∈ getChangesViaStatus [] ["c.txt"] :=
  ⟨rfl, by decide⟩
